import Mathlib

/-!
Verification of the link-graph construction and centrality pipeline of
`run_network.py`.

The script builds a `networkx.DiGraph` by crawling five seed pages,
computes `nx.pagerank` and `nx.betweenness_centrality`, assembles ranked
rows sorted descending by the composite key `(pagerank, betweenness)`,
and renders the induced subgraph on the seeds plus their first 30
successors.

The embedding below models:
* the `networkx.DiGraph` store (insertion-ordered node and edge lists,
  duplicate edges ignored) and its adjacency/degree queries;
* the crawl loop of `main` (lines 30-53), abstracting the HTTP fetch and
  HTML extraction as an oracle `String → Option (List String)`;
* `nx.pagerank` with its default parameters (damping 0.85, tolerance
  1e-6 on the L1 delta scaled by N, 100 iterations, dangling mass spread
  uniformly, `PowerIterationFailedConvergence` raised on cap
  exhaustion), with real arithmetic carried out exactly over `ℚ`;
* `nx.betweenness_centrality` with its default parameters (directed,
  `normalized=True`: the Brandes accumulation is divided by
  `(n-1)(n-2)` when `n > 2`), via shortest-path counting;
* the row assembly and the stable descending sort on
  `(pagerank, betweenness)` (Python's `list.sort` with `reverse=True`
  is a stable sort; it is modelled by `List.insertionSort` on the
  reversed comparison, which is stable for the same total preorder);
* the visualization subgraph `G.subgraph(keep)` of lines 87-94.
-/

/-- Model of the `networkx.DiGraph` built by `run_network.py`: nodes and
edges are kept in insertion order, duplicate edges are ignored.  Nodes
only ever arise as edge endpoints, exactly as in the script. -/
structure Graph where
  nodes : List String
  edges : List (String × String)
deriving Repr, DecidableEq

/-- The empty `DiGraph` (`G = nx.DiGraph()`, line 27). -/
def Graph.empty : Graph := ⟨[], []⟩

/-- Internal part of `add_edge`: register a node if it is new
(networkx appends new keys to its node dict in insertion order). -/
def Graph.add_node (g : Graph) (v : String) : Graph :=
  if v ∈ g.nodes then g else { g with nodes := g.nodes ++ [v] }

/-- `G.add_edge(u, v)` (line 48): register `u` then `v` as nodes if they
are new, then add the edge `(u, v)` unless it is already present. -/
def Graph.add_edge (g : Graph) (u v : String) : Graph :=
  let g1 := (g.add_node u).add_node v
  if (u, v) ∈ g1.edges then g1
  else { g1 with edges := g1.edges ++ [(u, v)] }

/-- Build a graph from a stream of discovered `(source, target)` pairs
by repeated `add_edge`, starting from the empty graph. -/
def buildGraph (ps : List (String × String)) : Graph :=
  ps.foldl (fun g p => g.add_edge p.1 p.2) Graph.empty

/-- The adjacency of `u` (networkx's `G._succ[u]`): targets of the
edges leaving `u`, in insertion order (networkx iterates the adjacency
dict in insertion order).  This is the value the public
`G.successors(u)` iterates when `u` is in the graph; on an unknown node
that call raises `NetworkXError` — see `Graph.successors_call`. -/
def Graph.successors (g : Graph) (u : String) : List String :=
  (g.edges.filter (fun e => e.1 == u)).map (fun e => e.2)

/-- The reverse adjacency of `v` (networkx's `G._pred[v]`): sources of
the edges entering `v`, in insertion order.  This is the value the
public `G.predecessors(v)` iterates when `v` is in the graph; on an
unknown node that call raises `NetworkXError` — see
`Graph.predecessors_call`. -/
def Graph.predecessors (g : Graph) (v : String) : List String :=
  (g.edges.filter (fun e => e.2 == v)).map (fun e => e.1)

/-- The integer out-degree: the value of `G.out_degree(u)` for a node
`u` of the graph (line 69 queries only nodes of `G`).  For a string not
in the graph the public call yields a `DegreeView`, not an integer —
see `Graph.out_degree_call`. -/
def Graph.out_degree (g : Graph) (u : String) : Nat :=
  (g.successors u).length

/-- The integer in-degree: the value of `G.in_degree(v)` for a node
`v` of the graph (line 68 queries only nodes of `G`).  For a string not
in the graph the public call yields a `DegreeView`, not an integer —
see `Graph.in_degree_call`. -/
def Graph.in_degree (g : Graph) (v : String) : Nat :=
  (g.predecessors v).length

/-- Well-formedness of a graph as maintained by `networkx.DiGraph`:
no duplicate nodes, no duplicate edges, and every edge endpoint is a
registered node. -/
def Graph.WF (g : Graph) : Prop :=
  g.nodes.Nodup ∧ g.edges.Nodup ∧
    ∀ e ∈ g.edges, e.1 ∈ g.nodes ∧ e.2 ∈ g.nodes

/-- The five seed URLs of `run_network.py` (lines 12-18). -/
def SEEDS : List String :=
  ["https://en.wikipedia.org/wiki/University_of_Maryland,_College_Park",
   "https://en.wikipedia.org/wiki/Higher_education",
   "https://en.wikipedia.org/wiki/Information_science",
   "https://en.wikipedia.org/wiki/Public_university",
   "https://en.wikipedia.org/wiki/College_Park,_Maryland"]

/-- `BASE` (line 20). -/
def BASE : String := "https://en.wikipedia.org"

/-- The href filter of the crawl loop (lines 42-45): keep only hrefs
starting with `/wiki/` and containing no colon. -/
def keepHref (h : String) : Bool :=
  h.startsWith "/wiki/" && !(h.contains ':')

/-- One seed iteration of the crawl loop (lines 40-48): for each
extracted href that passes the filter, add the edge from the seed URL to
`urljoin(BASE, href)`; for a root-relative href (all hrefs passing the
filter start with `/wiki/`) `urljoin` is string concatenation. -/
def scrapeInto (g : Graph) (url : String) (hrefs : List String) : Graph :=
  hrefs.foldl (fun g2 h => if keepHref h then g2.add_edge url (BASE ++ h) else g2) g

/-- The crawl loop of `main` (lines 30-53).  The HTTP fetch and HTML
extraction are abstracted as `fetch`: for a URL it yields the hrefs of
the content div in document order, or `none` when the request raised or
the page had no content div (in which case the seed contributes no
edges). -/
def crawl (fetch : String → Option (List String)) : Graph :=
  SEEDS.foldl (fun g url =>
    match fetch url with
    | none => g
    | some hrefs => scrapeInto g url hrefs) Graph.empty

/-- The structural invariant of the crawled graph: every edge starts at
a seed, and every node is a seed or a direct successor of a seed. -/
def crawlInv (g : Graph) : Prop :=
  (∀ e ∈ g.edges, e.1 ∈ SEEDS) ∧
    ∀ v ∈ g.nodes, v ∈ SEEDS ∨ ∃ s ∈ SEEDS, (s, v) ∈ g.edges

/-- The retained node set of the visualization (lines 87-89):
`keep = set(SEEDS)` extended, for each seed, with the first `cap`
successors in the graph's successor iteration order
(`list(G.successors(s))[:30]`).  Membership in this list is what
matters; the Python `set` has no order.  When a seed is absent from
the graph the real `G.successors(s)` raises before any subgraph is
produced (see `Graph.successors_call`); the subgraph characterization
below describes the subgraph produced when line 90 is reached. -/
def retained (g : Graph) (seeds : List String) (cap : Nat) : List String :=
  seeds ++ seeds.flatMap (fun s => (g.successors s).take cap)

/-- `G.subgraph(keep)` (line 90): the induced subgraph on the retained
nodes that exist in `G` — networkx silently drops requested nodes that
are not in the graph, and keeps exactly the edges with both endpoints
retained. -/
def Graph.subgraph (g : Graph) (keep : List String) : Graph :=
  ⟨g.nodes.filter (fun v => keep.contains v),
   g.edges.filter (fun e => keep.contains e.1 && keep.contains e.2)⟩

/-- The neighborhood sampler of `main` (lines 87-90): seeds plus the
first 30 successors of each seed, induced in the parent graph. -/
def sampleNeighborhood (g : Graph) (seeds : List String) (cap : Nat) : Graph :=
  g.subgraph (retained g seeds cap)

/-- Node sizes of the rendering (line 94): `3000 * pr.get(n, 0) + 30`
over the subgraph's nodes.  The score map is modelled as a total
function; `pr.get(n, 0.0)` is its value with default `0`. -/
def node_sizes (pr : String → ℚ) (h : Graph) : List ℚ :=
  h.nodes.map (fun n => 3000 * pr n + 30)

/-- The visualization pipeline (lines 87-94): the sampled subgraph
together with the PageRank-dependent node sizes.  Only the sizes consult
the score map. -/
def visualization (g : Graph) (pr : String → ℚ) : Graph × List ℚ :=
  (sampleNeighborhood g SEEDS 30, node_sizes pr (sampleNeighborhood g SEEDS 30))

/-- The label column (line 66): strip the wiki prefix and turn
underscores into blanks. -/
def label_of (url : String) : String :=
  (url.replace "https://en.wikipedia.org/wiki/" "").replace "_" " "

/-- A ranked row (lines 64-73):
`(label, url, in_degree, out_degree, pagerank, betweenness)`. -/
def RankedRow : Type := String × String × Nat × Nat × ℚ × ℚ

instance : DecidableEq RankedRow := by
  unfold RankedRow
  infer_instance

/-- The url column of a row. -/
def RankedRow.url (r : RankedRow) : String := r.2.1

/-- The sort key of line 75: `(r[4], r[5])`, the
`(pagerank, betweenness)` pair. -/
def row_key (r : RankedRow) : ℚ × ℚ :=
  (r.2.2.2.2.1, r.2.2.2.2.2)

/-- Python's lexicographic comparison of two `(pagerank, betweenness)`
key tuples. -/
def lexLe (a b : ℚ × ℚ) : Prop :=
  a.1 < b.1 ∨ (a.1 = b.1 ∧ a.2 ≤ b.2)

instance : DecidableRel lexLe := by
  unfold lexLe
  infer_instance

/-- The ordering used by `rows.sort(key=..., reverse=True)` (line 75):
`r1` may come before `r2` exactly when its key is lexicographically
greater or equal. -/
def row_before (r1 r2 : RankedRow) : Prop :=
  lexLe (row_key r2) (row_key r1)

instance : DecidableRel row_before := by
  unfold row_before
  infer_instance

/-- Build the unsorted rows (lines 62-73), one per node in the graph's
node iteration order. -/
def build_rows (g : Graph) (pr bt : String → ℚ) : List RankedRow :=
  g.nodes.map (fun node =>
    (label_of node, node, g.in_degree node, g.out_degree node, pr node, bt node))

/-- `rows.sort(key=lambda r: (r[4], r[5]), reverse=True)` (line 75).
Python's sort is a stable sort by the key with the comparison reversed;
any stable sort computes the same list, and `List.insertionSort` is
stable (earlier elements are inserted later, in front of no equal
element). -/
def sort_rows (rows : List RankedRow) : List RankedRow :=
  rows.insertionSort row_before

/-- The assembled ranking of `main`: built rows, sorted. -/
def assemble_rows (g : Graph) (pr bt : String → ℚ) : List RankedRow :=
  sort_rows (build_rows g pr bt)

/-- Number of nodes `N = len(G)`. -/
def Graph.N (g : Graph) : Nat := g.nodes.length

/-- One entry of the PageRank flow into `v`: each predecessor `u`
contributes `x(u) / out_degree(u)` (edge weights default to 1 and the
graph is simple, so the row-stochastic adjacency entry is
`1 / out_degree(u)`).  Self-loops count like any other edge. -/
def pr_in_sum (g : Graph) (x : String → ℚ) (v : String) : ℚ :=
  (g.nodes.map (fun u =>
    if (u, v) ∈ g.edges then x u / (g.out_degree u : ℚ) else 0)).sum

/-- The total score mass sitting on dangling nodes (out-degree 0),
which `nx.pagerank` redistributes uniformly over all nodes. -/
def dangling_sum (g : Graph) (x : String → ℚ) : ℚ :=
  (g.nodes.map (fun u => if g.out_degree u = 0 then x u else 0)).sum

/-- One power iteration of `nx.pagerank`:
`x' = alpha * (x @ A + danglesum * (1/N)) + (1 - alpha) / N`. -/
def pr_step (g : Graph) (a : ℚ) (x : String → ℚ) : String → ℚ :=
  fun v => a * (pr_in_sum g x v + dangling_sum g x / (g.N : ℚ)) + (1 - a) / (g.N : ℚ)

/-- The L1 distance `err = absolute(x - xlast).sum()` over the node
vector. -/
def l1_err (g : Graph) (x y : String → ℚ) : ℚ :=
  (g.nodes.map (fun v => |x v - y v|)).sum

/-- The iteration loop of `nx.pagerank`: up to `fuel` iterations; after
each, return the new vector if the L1 delta dropped below `N * tol`;
when the loop ends without converging, networkx raises
`PowerIterationFailedConvergence`, modelled as `Except.error ()`. -/
def pr_loop (g : Graph) (a tol : ℚ) : (String → ℚ) → Nat → Except Unit (String → ℚ)
  | _, 0 => .error ()
  | x, fuel + 1 =>
    if l1_err g (pr_step g a x) x < (g.N : ℚ) * tol then .ok (pr_step g a x)
    else pr_loop g a tol (pr_step g a x) fuel

/-- `nx.pagerank(G, alpha, max_iter, tol)` (line 58 calls it with the
defaults `alpha=0.85`, `max_iter=100`, `tol=1e-6`): the empty graph
yields the empty score dict, otherwise power iteration from the uniform
vector `1/N`. -/
def pagerank (g : Graph) (a tol : ℚ) (max_iter : Nat) : Except Unit (String → ℚ) :=
  if g.N = 0 then .ok (fun _ => 0)
  else pr_loop g a tol (fun _ => 1 / (g.N : ℚ)) max_iter

/-- Number of walks of length `k` from `s` to `t` along directed edges.
A walk of length `dist s t` is exactly a shortest path, so these counts
determine the shortest-path counts of Brandes' algorithm. -/
def walks (g : Graph) : Nat → String → String → Nat
  | 0, s, t => if s = t then 1 else 0
  | k + 1, s, t => ((g.successors s).map (fun u => walks g k u t)).sum

/-- Directed shortest-path distance: the least length `k < N` with a
walk from `s` to `t` (a shortest path repeats no node, so its length is
below the node count); `none` when `t` is unreachable from `s`. -/
def Graph.dist (g : Graph) (s t : String) : Option Nat :=
  (List.range g.N).find? (fun k => walks g k s t != 0)

/-- `sigma s t`: the number of shortest paths from `s` to `t`
(0 when unreachable). -/
def sigma (g : Graph) (s t : String) : Nat :=
  match g.dist s t with
  | none => 0
  | some d => walks g d s t

/-- `sigma_through s v t`: the number of shortest paths from `s` to `t`
on which `v` lies (as anything, endpoint cases are excluded by the
caller): nonzero only when `v` is on some shortest path, in which case
it is the product of the two shortest-path counts. -/
def sigma_through (g : Graph) (s v t : String) : Nat :=
  match g.dist s v, g.dist v t, g.dist s t with
  | some d1, some d2, some d =>
    if d1 + d2 = d then walks g d1 s v * walks g d2 v t else 0
  | _, _, _ => 0

/-- The raw Brandes accumulation for node `v`: over all ordered pairs
`(s, t)` of distinct nodes with both different from `v` and `t`
reachable from `s`, the fraction of shortest `s`-`t` paths with `v` as
a strict interior vertex. -/
def betweenness_raw (g : Graph) (v : String) : ℚ :=
  (g.nodes.map (fun s =>
    (g.nodes.map (fun t =>
      if s ≠ t ∧ s ≠ v ∧ t ≠ v ∧ sigma g s t ≠ 0 then
        (sigma_through g s v t : ℚ) / (sigma g s t : ℚ)
      else 0)).sum)).sum

/-- The `_rescale` step of `nx.betweenness_centrality` for a directed
graph with the default `normalized=True` and `k=None`: divide by
`(n-1)(n-2)` when `n > 2`, otherwise leave the value alone. -/
def rescale (g : Graph) (b : ℚ) : ℚ :=
  if 2 < g.N then b / (((g.N : ℚ) - 1) * ((g.N : ℚ) - 2)) else b

/-- `nx.betweenness_centrality(G)` (line 59, all defaults): Brandes'
accumulation followed by the rescaling step. -/
def betweenness_centrality (g : Graph) (v : String) : ℚ :=
  rescale g (betweenness_raw g v)

/-- The directed path graph `A -> B -> C` of the spec's betweenness
scenario, built by `add_edge` like every graph of the pipeline. -/
def g3 : Graph := buildGraph [("A", "B"), ("B", "C")]

/-- The end-to-end scenario graph with edges
`{(S1,A), (S1,B), (A,B), (B,A)}`. -/
def g4 : Graph := buildGraph [("S1", "A"), ("S1", "B"), ("A", "B"), ("B", "A")]

/-- The uniform initial PageRank vector on the three nodes of `g4`. -/
def x04 : String → ℚ := fun _ => 1 / 3

/-- The PageRank vector of `g4` after one power iteration. -/
def x14 : String → ℚ := pr_step g4 (17/20) x04

/-- The PageRank vector of `g4` after two power iterations; the
iteration is stationary from here on, so this is the returned map. -/
def pm4 : String → ℚ := pr_step g4 (17/20) x14

instance : IsTotal RankedRow row_before := by
  constructor
  intro a b
  unfold row_before lexLe
  rcases lt_trichotomy (row_key b).1 (row_key a).1 with h | h | h
  · exact Or.inl (Or.inl h)
  · rcases le_total (row_key b).2 (row_key a).2 with h2 | h2
    · exact Or.inl (Or.inr ⟨h, h2⟩)
    · exact Or.inr (Or.inr ⟨h.symm, h2⟩)
  · exact Or.inr (Or.inl h)

instance : IsTrans RankedRow row_before := by
  constructor
  intro a b c hab hbc
  unfold row_before lexLe at hab hbc ⊢
  rcases hab with h1 | ⟨h1, h1b⟩ <;> rcases hbc with h2 | ⟨h2, h2b⟩
  · exact Or.inl (h2.trans h1)
  · exact Or.inl (h2 ▸ h1)
  · exact Or.inl (h1 ▸ h2)
  · exact Or.inr ⟨h2.trans h1, h2b.trans h1b⟩

/-- Result of the public degree calls `G.in_degree(x)` /
`G.out_degree(x)`: an integer when `x` is a node of the graph, and
otherwise a `DegreeView` — networkx then consumes the string as an
nbunch, i.e. as an iterable of single-character node names, keeping the
ones present in the graph (`G.nbunch_iter`). -/
inductive DegreeCallResult where
  | count (n : Nat)
  | view (entries : List (String × Nat))
deriving Repr, DecidableEq

/-- The public `G.successors(u)`: the adjacency iterator when `u` is in
the graph, and `NetworkXError` ("The node u is not in the digraph"),
modelled as `Except.error ()`, when it is not. -/
def Graph.successors_call (g : Graph) (u : String) : Except Unit (List String) :=
  if u ∈ g.nodes then .ok (g.successors u) else .error ()

/-- The public `G.predecessors(v)`: raises `NetworkXError` when `v` is
not in the digraph. -/
def Graph.predecessors_call (g : Graph) (v : String) : Except Unit (List String) :=
  if v ∈ g.nodes then .ok (g.predecessors v) else .error ()

/-- The nbunch fallback of a `DegreeView` applied to a string that is
not a node: the string's characters, as one-character node names, kept
when they are graph nodes, paired with their degrees. -/
def Graph.nbunch_view (g : Graph) (x : String) (deg : String → Nat) :
    List (String × Nat) :=
  ((x.toList.map (fun c => String.mk [c])).filter
    (fun s => g.nodes.contains s)).map (fun s => (s, deg s))

/-- The public `G.in_degree(x)`: the integer in-degree when `x` is a
node, otherwise a `DegreeView` over the nbunch `x`. -/
def Graph.in_degree_call (g : Graph) (x : String) : DegreeCallResult :=
  if x ∈ g.nodes then .count (g.in_degree x)
  else .view (g.nbunch_view x g.in_degree)

/-- The public `G.out_degree(x)`: the integer out-degree when `x` is a
node, otherwise a `DegreeView` over the nbunch `x`. -/
def Graph.out_degree_call (g : Graph) (x : String) : DegreeCallResult :=
  if x ∈ g.nodes then .count (g.out_degree x)
  else .view (g.nbunch_view x g.out_degree)

/-! ### Lemmas and claim theorems -/

theorem Graph.WF_empty : Graph.empty.WF := by
  refine ⟨List.nodup_nil, List.nodup_nil, ?_⟩
  intro e he
  simp [Graph.empty] at he

theorem Graph.nodes_add_node (g : Graph) (v : String) :
    (g.add_node v).nodes = if v ∈ g.nodes then g.nodes else g.nodes ++ [v] := by
  by_cases h : v ∈ g.nodes <;> simp [Graph.add_node, h]

theorem Graph.edges_add_node (g : Graph) (v : String) :
    (g.add_node v).edges = g.edges := by
  by_cases h : v ∈ g.nodes <;> simp [Graph.add_node, h]

theorem Graph.mem_nodes_add_node {g : Graph} {v w : String} :
    w ∈ (g.add_node v).nodes ↔ w ∈ g.nodes ∨ w = v := by
  by_cases h : v ∈ g.nodes
  · simp only [Graph.nodes_add_node, if_pos h]
    constructor
    · exact Or.inl
    · rintro (hw | rfl) <;> [exact hw; exact h]
  · simp [Graph.nodes_add_node, if_neg h]

theorem Graph.mem_nodes_of_add_node {g : Graph} {v w : String}
    (h : w ∈ g.nodes) : w ∈ (g.add_node v).nodes :=
  Graph.mem_nodes_add_node.mpr (Or.inl h)

theorem Graph.self_mem_nodes_add_node (g : Graph) (v : String) :
    v ∈ (g.add_node v).nodes :=
  Graph.mem_nodes_add_node.mpr (Or.inr rfl)

theorem Graph.WF_add_node {g : Graph} (h : g.WF) (v : String) :
    (g.add_node v).WF := by
  obtain ⟨hn, he, hep⟩ := h
  refine ⟨?_, ?_, ?_⟩
  · rw [Graph.nodes_add_node]
    by_cases hv : v ∈ g.nodes
    · simpa [hv] using hn
    · simp only [if_neg hv]
      refine List.Nodup.append hn (List.nodup_singleton v) ?_
      intro a ha hb
      rw [List.mem_singleton] at hb
      exact hv (hb ▸ ha)
  · rw [Graph.edges_add_node]; exact he
  · intro e he2
    rw [Graph.edges_add_node] at he2
    exact ⟨Graph.mem_nodes_of_add_node (hep e he2).1,
      Graph.mem_nodes_of_add_node (hep e he2).2⟩

theorem Graph.edges_add_edge (g : Graph) (u v : String) :
    (g.add_edge u v).edges =
      if (u, v) ∈ g.edges then g.edges else g.edges ++ [(u, v)] := by
  by_cases h : (u, v) ∈ g.edges <;>
    simp [Graph.add_edge, Graph.edges_add_node, h]

theorem Graph.nodes_add_edge (g : Graph) (u v : String) :
    (g.add_edge u v).nodes = ((g.add_node u).add_node v).nodes := by
  by_cases h : (u, v) ∈ g.edges <;>
    simp [Graph.add_edge, Graph.edges_add_node, h]

theorem Graph.mem_edges_add_edge {g : Graph} {u v : String} {e : String × String} :
    e ∈ (g.add_edge u v).edges ↔ e ∈ g.edges ∨ e = (u, v) := by
  rw [Graph.edges_add_edge]
  by_cases h : (u, v) ∈ g.edges
  · simp only [if_pos h]
    constructor
    · exact Or.inl
    · rintro (hw | rfl) <;> [exact hw; exact h]
  · simp [if_neg h]

theorem Graph.mem_nodes_add_edge {g : Graph} {u v w : String} :
    w ∈ (g.add_edge u v).nodes ↔ w ∈ g.nodes ∨ w = u ∨ w = v := by
  rw [Graph.nodes_add_edge]
  simp only [Graph.mem_nodes_add_node]
  tauto

theorem Graph.WF_add_edge {g : Graph} (h : g.WF) (u v : String) :
    (g.add_edge u v).WF := by
  have h2 : ((g.add_node u).add_node v).WF :=
    Graph.WF_add_node (Graph.WF_add_node h u) v
  obtain ⟨hn, he, hep⟩ := h2
  rw [Graph.edges_add_node, Graph.edges_add_node] at he hep
  refine ⟨?_, ?_, ?_⟩
  · rw [Graph.nodes_add_edge]; exact hn
  · rw [Graph.edges_add_edge]
    by_cases hmem : (u, v) ∈ g.edges
    · simpa [hmem] using he
    · simp only [if_neg hmem]
      refine List.Nodup.append he (List.nodup_singleton _) ?_
      intro a ha hb
      rw [List.mem_singleton] at hb
      exact hmem (hb ▸ ha)
  · intro e he2
    rw [Graph.mem_edges_add_edge] at he2
    rw [Graph.nodes_add_edge]
    rcases he2 with h1 | rfl
    · exact hep e h1
    · exact ⟨Graph.mem_nodes_of_add_node (Graph.self_mem_nodes_add_node g u),
        Graph.self_mem_nodes_add_node (g.add_node u) v⟩

/-- Every graph reachable by folding `add_edge` over a pair list from a
well-formed start is well-formed. -/
theorem Graph.WF_foldl_add_edge (ps : List (String × String)) :
    ∀ g : Graph, g.WF → (ps.foldl (fun g p => g.add_edge p.1 p.2) g).WF := by
  induction ps with
  | nil => intro g h; exact h
  | cons p ps ih =>
    intro g h
    exact ih _ (Graph.WF_add_edge h p.1 p.2)

theorem buildGraph_WF (ps : List (String × String)) : (buildGraph ps).WF :=
  Graph.WF_foldl_add_edge ps Graph.empty Graph.WF_empty

/-- Invariants that hold of the accumulator at every point of a fold. -/
theorem List.foldl_preserve {α β : Type} (f : β → α → β) (P : β → Prop) :
    ∀ (l : List α) (b : β), P b → (∀ b2 a, a ∈ l → P b2 → P (f b2 a)) →
      P (l.foldl f b) := by
  intro l
  induction l with
  | nil => intro b hb _; exact hb
  | cons a l ih =>
    intro b hb hstep
    exact ih (f b a) (hstep b a (List.mem_cons_self a l) hb)
      (fun b2 a2 ha2 => hstep b2 a2 (List.mem_cons_of_mem a ha2))

theorem crawlInv_add_edge {g : Graph} {u v : String}
    (h : crawlInv g) (hu : u ∈ SEEDS) : crawlInv (g.add_edge u v) := by
  obtain ⟨he, hn⟩ := h
  constructor
  · intro e he2
    rcases Graph.mem_edges_add_edge.mp he2 with h1 | rfl
    · exact he e h1
    · exact hu
  · intro w hw
    rcases Graph.mem_nodes_add_edge.mp hw with h1 | rfl | rfl
    · rcases hn w h1 with h2 | ⟨s, hs, h3⟩
      · exact Or.inl h2
      · exact Or.inr ⟨s, hs, Graph.mem_edges_add_edge.mpr (Or.inl h3)⟩
    · exact Or.inl hu
    · exact Or.inr ⟨u, hu, Graph.mem_edges_add_edge.mpr (Or.inr rfl)⟩

theorem crawlInv_scrapeInto {g : Graph} {url : String} (hrefs : List String)
    (h : crawlInv g) (hu : url ∈ SEEDS) : crawlInv (scrapeInto g url hrefs) := by
  refine List.foldl_preserve _ crawlInv hrefs g h ?_
  intro g2 a _ h2
  by_cases hk : keepHref a
  · simpa [hk] using crawlInv_add_edge h2 hu
  · simpa [hk] using h2

theorem crawlInv_crawl (fetch : String → Option (List String)) :
    crawlInv (crawl fetch) := by
  refine List.foldl_preserve _ crawlInv SEEDS Graph.empty ?_ ?_
  · constructor
    · intro e he; simp [Graph.empty] at he
    · intro v hv; simp [Graph.empty] at hv
  · intro g2 url hurl h2
    cases hf : fetch url with
    | none => simpa [hf] using h2
    | some hrefs => simpa [hf] using crawlInv_scrapeInto hrefs h2 hurl

/-- A node with no outgoing edge has no successors and out-degree 0. -/
theorem Graph.successors_eq_nil {g : Graph} {v : String}
    (h : ∀ e ∈ g.edges, e.1 ≠ v) : g.successors v = [] := by
  unfold Graph.successors
  rw [List.filter_eq_nil_iff.mpr, List.map_nil]
  intro e he
  simpa using h e he

theorem Graph.predecessors_eq_nil {g : Graph} {v : String}
    (h : ∀ e ∈ g.edges, e.2 ≠ v) : g.predecessors v = [] := by
  unfold Graph.predecessors
  rw [List.filter_eq_nil_iff.mpr, List.map_nil]
  intro e he
  simpa using h e he

theorem g4_nodes : g4.nodes = ["S1", "A", "B"] := by decide

theorem g4_N : g4.N = 3 := by decide

theorem g4_dangling (x : String → ℚ) : dangling_sum g4 x = 0 := by
  simp +decide [dangling_sum, g4_nodes]

theorem g4_odS1 : g4.out_degree "S1" = 2 := by decide

theorem g4_odA : g4.out_degree "A" = 1 := by decide

theorem g4_odB : g4.out_degree "B" = 1 := by decide

theorem x14_S1 : x14 "S1" = 1/20 := by
  simp +decide [x14, x04, pr_step, pr_in_sum, g4_dangling, g4_nodes, g4_N, g4_odS1, g4_odA, g4_odB]
  norm_num

theorem x14_A : x14 "A" = 19/40 := by
  simp +decide [x14, x04, pr_step, pr_in_sum, g4_dangling, g4_nodes, g4_N, g4_odS1, g4_odA, g4_odB]
  norm_num

theorem x14_B : x14 "B" = 19/40 := by
  simp +decide [x14, x04, pr_step, pr_in_sum, g4_dangling, g4_nodes, g4_N, g4_odS1, g4_odA, g4_odB]
  norm_num

theorem pm4_S1 : pm4 "S1" = 1/20 := by
  simp +decide [pm4, x14, x04, pr_step, pr_in_sum, g4_dangling, g4_nodes, g4_N, g4_odS1, g4_odA, g4_odB]
  norm_num

theorem pm4_A : pm4 "A" = 19/40 := by
  simp +decide [pm4, x14, x04, pr_step, pr_in_sum, g4_dangling, g4_nodes, g4_N, g4_odS1, g4_odA, g4_odB]
  norm_num

theorem pm4_B : pm4 "B" = 19/40 := by
  simp +decide [pm4, x14, x04, pr_step, pr_in_sum, g4_dangling, g4_nodes, g4_N, g4_odS1, g4_odA, g4_odB]
  norm_num

theorem l1_err_g4_1 : l1_err g4 x14 x04 = 17/30 := by
  simp only [l1_err, g4_nodes, List.map_cons, List.map_nil, List.sum_cons,
    List.sum_nil, x14_S1, x14_A, x14_B, x04]
  rw [abs_sub_comm, abs_of_nonneg (by norm_num : (0:ℚ) ≤ 1/3 - 1/20),
    abs_of_nonneg (by norm_num : (0:ℚ) ≤ 19/40 - 1/3)]
  norm_num

theorem l1_err_g4_2 : l1_err g4 pm4 x14 = 0 := by
  simp only [l1_err, g4_nodes, List.map_cons, List.map_nil, List.sum_cons,
    List.sum_nil, x14_S1, x14_A, x14_B, pm4_S1, pm4_A, pm4_B]
  norm_num

/-- On `g4`, `nx.pagerank` with its defaults converges after two
iterations and returns `pm4`. -/
theorem pagerank_g4_eval : pagerank g4 (17/20) (1/1000000) 100 = .ok pm4 := by
  rw [pagerank, if_neg (by decide : ¬ (g4.N = 0)),
    show (fun _ : String => 1 / (g4.N : ℚ)) = x04 by funext v; rw [g4_N, x04]; norm_num]
  show pr_loop g4 (17/20) (1/1000000) x04 (99+1) = _
  rw [pr_loop, if_neg (by rw [show pr_step g4 (17/20) x04 = x14 from rfl, l1_err_g4_1, g4_N]; norm_num)]
  show pr_loop g4 (17/20) (1/1000000) x14 (98+1) = _
  rw [pr_loop, if_pos (by rw [show pr_step g4 (17/20) x14 = pm4 from rfl, l1_err_g4_2, g4_N]; norm_num)]
  rfl

/-- On `g4`, `nx.pagerank` with `max_iter=1` exhausts the cap (the
first L1 delta is `17/30`, far above `N * tol = 3e-6`) and raises
`PowerIterationFailedConvergence`. -/
theorem pagerank_g4_cap1 : pagerank g4 (17/20) (1/1000000) 1 = .error () := by
  rw [pagerank, if_neg (by decide : ¬ (g4.N = 0)),
    show (fun _ : String => 1 / (g4.N : ℚ)) = x04 by funext v; rw [g4_N, x04]; norm_num]
  show pr_loop g4 (17/20) (1/1000000) x04 (0+1) = _
  rw [pr_loop, if_neg (by rw [show pr_step g4 (17/20) x04 = x14 from rfl, l1_err_g4_1, g4_N]; norm_num)]
  rfl

theorem g3_nodes : g3.nodes = ["A", "B", "C"] := by decide

theorem bt_raw_g3_B : betweenness_raw g3 "B" = 1 := by
  have h1 : sigma_through g3 "A" "B" "C" = 1 := by decide
  have h2 : sigma g3 "A" "C" = 1 := by decide
  simp +decide [betweenness_raw, g3_nodes, h1, h2]

theorem bt_g3_B : betweenness_centrality g3 "B" = 1/2 := by
  have h3 : g3.N = 3 := by decide
  rw [betweenness_centrality, bt_raw_g3_B, rescale, if_pos (by decide : 2 < g3.N), h3]
  norm_num

theorem bt_g3_A : betweenness_centrality g3 "A" = 0 := by
  have h : betweenness_raw g3 "A" = 0 := by
    simp +decide [betweenness_raw, g3_nodes]
  rw [betweenness_centrality, h, rescale, if_pos (by decide : 2 < g3.N)]
  norm_num

theorem bt_g3_C : betweenness_centrality g3 "C" = 0 := by
  have h : betweenness_raw g3 "C" = 0 := by
    simp +decide [betweenness_raw, g3_nodes]
  rw [betweenness_centrality, h, rescale, if_pos (by decide : 2 < g3.N)]
  norm_num

theorem bt_g4_S1 : betweenness_centrality g4 "S1" = 0 := by
  have h : betweenness_raw g4 "S1" = 0 := by
    have h1 : sigma_through g4 "A" "S1" "B" = 0 := by decide
    have h2 : sigma_through g4 "B" "S1" "A" = 0 := by decide
    simp +decide [betweenness_raw, g4_nodes, h1, h2]
  rw [betweenness_centrality, h, rescale, if_pos (by decide : 2 < g4.N)]
  norm_num

theorem bt_g4_A : betweenness_centrality g4 "A" = 0 := by
  have h : betweenness_raw g4 "A" = 0 := by
    have h1 : sigma_through g4 "S1" "A" "B" = 0 := by decide
    have h2 : sigma_through g4 "B" "A" "S1" = 0 := by decide
    simp +decide [betweenness_raw, g4_nodes, h1, h2]
  rw [betweenness_centrality, h, rescale, if_pos (by decide : 2 < g4.N)]
  norm_num

theorem bt_g4_B : betweenness_centrality g4 "B" = 0 := by
  have h : betweenness_raw g4 "B" = 0 := by
    have h1 : sigma_through g4 "S1" "B" "A" = 0 := by decide
    have h2 : sigma_through g4 "A" "B" "S1" = 0 := by decide
    simp +decide [betweenness_raw, g4_nodes, h1, h2]
  rw [betweenness_centrality, h, rescale, if_pos (by decide : 2 < g4.N)]
  norm_num


/-- C1 (counterexample): on the path graph `A -> B -> C` the raw
Brandes accumulation of `B` is `1` (one pair `(A, C)`, all of whose
shortest paths pass through `B`), but `nx.betweenness_centrality`
returns `1/2`: with its default `normalized=True` the engine divides by
`(N-1)(N-2) = 2`, so the returned scores are not the raw unnormalized
accumulations. -/
theorem betweenness_normalized_on_path :
    betweenness_raw g3 "B" = 1 ∧ betweenness_centrality g3 "B" = 1/2 ∧
      betweenness_centrality g3 "B" ≠ betweenness_raw g3 "B" := by
  refine ⟨bt_raw_g3_B, bt_g3_B, ?_⟩
  rw [bt_raw_g3_B, bt_g3_B]
  norm_num

/-- C1 (amended): for every graph with more than two nodes, each node's
returned betweenness is the raw Brandes accumulation divided by
`(N-1)(N-2)` — the networkx default `normalized=True` rescaling for a
directed graph; for `N ≤ 2` the accumulation is returned as is. -/
theorem betweenness_is_rescaled_brandes (g : Graph) (v : String) (h : 2 < g.N) :
    betweenness_centrality g v * (((g.N : ℚ) - 1) * ((g.N : ℚ) - 2)) =
      betweenness_raw g v := by
  rw [betweenness_centrality, rescale, if_pos h]
  have h2 : (2 : ℚ) < (g.N : ℚ) := by exact_mod_cast h
  have hne : ((g.N : ℚ) - 1) * ((g.N : ℚ) - 2) ≠ 0 := by
    have h1 : (0 : ℚ) < (g.N : ℚ) - 1 := by linarith
    have h3 : (0 : ℚ) < (g.N : ℚ) - 2 := by linarith
    positivity
  exact div_mul_cancel₀ _ hne

/-- C1 (witness for the amended theorem): on the path graph,
`(1/2) * ((3-1) * (3-2)) = 1`. -/
theorem betweenness_is_rescaled_brandes_witness :
    betweenness_centrality g3 "B" * (((g3.N : ℚ) - 1) * ((g3.N : ℚ) - 2)) =
      betweenness_raw g3 "B" :=
  betweenness_is_rescaled_brandes g3 "B" (by decide)

/-- C7: on the directed path graph with exactly the edges `A -> B` and
`B -> C`, the betweenness engine gives `B` a strictly positive score
(`1/2`) and gives `A` and `C` exactly `0`. -/
theorem path_graph_betweenness :
    0 < betweenness_centrality g3 "B" ∧ betweenness_centrality g3 "A" = 0 ∧
      betweenness_centrality g3 "C" = 0 := by
  refine ⟨?_, bt_g3_A, bt_g3_C⟩
  rw [bt_g3_B]
  norm_num

/-- C10: whatever the fetch layer returns, every edge of the crawled
graph starts at one of the five seed URLs; hence every non-seed node
has out-degree 0 (it is a dangling node), and every node is a seed or a
direct successor of a seed — the graph reaches depth at most 1 from the
seed set. -/
theorem crawl_depth_at_most_one (fetch : String → Option (List String)) :
    (∀ e ∈ (crawl fetch).edges, e.1 ∈ SEEDS) ∧
      (∀ v ∈ (crawl fetch).nodes, v ∉ SEEDS → (crawl fetch).out_degree v = 0) ∧
      (∀ v ∈ (crawl fetch).nodes,
        v ∈ SEEDS ∨ ∃ s ∈ SEEDS, (s, v) ∈ (crawl fetch).edges) := by
  obtain ⟨he, hn⟩ := crawlInv_crawl fetch
  refine ⟨he, ?_, hn⟩
  intro v _ hvs
  have hnosucc : ∀ e ∈ (crawl fetch).edges, e.1 ≠ v := by
    intro e hee heq
    exact hvs (heq ▸ he e hee)
  rw [Graph.out_degree, Graph.successors_eq_nil hnosucc, List.length_nil]

/-- C8: the sampled subgraph keeps exactly the parent nodes that are
seeds or among the first `cap` successors of a seed (in successor
iteration order), and exactly the parent edges with both endpoints
retained. -/
theorem sampler_induced_subgraph (g : Graph) (seeds : List String) (cap : Nat) :
    (∀ v ∈ (sampleNeighborhood g seeds cap).nodes, v ∈ g.nodes) ∧
      (∀ v, v ∈ (sampleNeighborhood g seeds cap).nodes ↔
        v ∈ g.nodes ∧ (v ∈ seeds ∨ ∃ s ∈ seeds, v ∈ (g.successors s).take cap)) ∧
      (∀ e, e ∈ (sampleNeighborhood g seeds cap).edges ↔
        e ∈ g.edges ∧ e.1 ∈ retained g seeds cap ∧ e.2 ∈ retained g seeds cap) := by
  refine ⟨?_, ?_, ?_⟩
  · intro v hv
    exact (List.mem_filter.mp hv).1
  · intro v
    simp [sampleNeighborhood, Graph.subgraph, retained, List.mem_filter]
  · intro e
    simp [sampleNeighborhood, Graph.subgraph, List.mem_filter]

/-- C9: subgraph membership never consults the score maps — for any two
PageRank score maps over the same graph, the visualization pipeline
produces the identical subgraph (same nodes, same edges); only the node
sizes may differ. -/
theorem sampler_ignores_scores (g : Graph) (pr1 pr2 : String → ℚ) :
    (visualization g pr1).1.nodes = (visualization g pr2).1.nodes ∧
      (visualization g pr1).1.edges = (visualization g pr2).1.edges ∧
      (visualization g pr1).1 = (visualization g pr2).1 :=
  ⟨rfl, rfl, rfl⟩

theorem row_before_of_key_eq {a b : RankedRow} (h : row_key a = row_key b) :
    row_before a b := by
  unfold row_before lexLe
  exact Or.inr ⟨congrArg Prod.fst h.symm, le_of_eq (congrArg Prod.snd h.symm)⟩

/-- Stability of the row sort: for every key value, the rows carrying
that key appear in the sorted output exactly as they appear in the
input — a stable sort moves no element past an equal one. -/
theorem sort_rows_stable (l : List RankedRow) (k : ℚ × ℚ) :
    (sort_rows l).filter (fun r => decide (row_key r = k)) =
      l.filter (fun r => decide (row_key r = k)) := by
  have hpair : (l.filter (fun r => decide (row_key r = k))).Pairwise row_before := by
    refine List.pairwise_of_forall_mem_list ?_
    intro a ha b hb
    have hak := of_decide_eq_true ((List.mem_filter.mp ha).2)
    have hbk := of_decide_eq_true ((List.mem_filter.mp hb).2)
    exact row_before_of_key_eq (hak.trans hbk.symm)
  have hsub : List.Sublist (l.filter (fun r => decide (row_key r = k))) (sort_rows l) :=
    List.sublist_insertionSort hpair (List.filter_sublist l)
  have hsub2 : List.Sublist (l.filter (fun r => decide (row_key r = k)))
      ((sort_rows l).filter (fun r => decide (row_key r = k))) := by
    have h2 := hsub.filter (fun r => decide (row_key r = k))
    rwa [List.filter_eq_self.mpr (fun a ha => (List.mem_filter.mp ha).2)] at h2
  have hperm : List.Perm ((sort_rows l).filter (fun r => decide (row_key r = k)))
      (l.filter (fun r => decide (row_key r = k))) :=
    (List.perm_insertionSort row_before l).filter _
  exact (hsub2.eq_of_length hperm.length_eq.symm).symm

/-- C5: the assembled rows are a permutation of the per-node rows,
pairwise sorted descending by the composite `(pagerank, betweenness)`
key (ties on pagerank broken by betweenness), rows with fully equal
keys stay in insertion/iteration order (stability), and re-running the
assembly on the identical input yields the identical ordering. -/
theorem assemble_rows_sorted_stable_deterministic (g : Graph) (pr bt : String → ℚ) :
    (assemble_rows g pr bt).Pairwise row_before ∧
      (assemble_rows g pr bt).Perm (build_rows g pr bt) ∧
      (∀ k : ℚ × ℚ,
        (assemble_rows g pr bt).filter (fun r => decide (row_key r = k)) =
          (build_rows g pr bt).filter (fun r => decide (row_key r = k))) ∧
      assemble_rows g pr bt = assemble_rows g pr bt := by
  refine ⟨?_, ?_, ?_, rfl⟩
  · exact List.sorted_insertionSort row_before (build_rows g pr bt)
  · exact List.perm_insertionSort row_before (build_rows g pr bt)
  · intro k
    exact sort_rows_stable (build_rows g pr bt) k

theorem g4_inA : g4.in_degree "A" = 2 := by decide

theorem g4_inB : g4.in_degree "B" = 2 := by decide

theorem build_rows_g4 :
    build_rows g4 pm4 (betweenness_centrality g4) =
      [(label_of "S1", "S1", 0, 2, 1/20, 0),
       (label_of "A", "A", 2, 1, 19/40, 0),
       (label_of "B", "B", 2, 1, 19/40, 0)] := by
  rw [build_rows, g4_nodes]
  simp only [List.map_cons, List.map_nil, pm4_S1, pm4_A, pm4_B,
    bt_g4_S1, bt_g4_A, bt_g4_B, g4_inA, g4_inB, g4_odS1, g4_odA, g4_odB,
    show g4.in_degree "S1" = 0 from by decide]

theorem sorted_rows_g4 :
    (assemble_rows g4 pm4 (betweenness_centrality g4)).map RankedRow.url =
      ["A", "B", "S1"] := by
  have hab : row_before
      ((label_of "A", "A", 2, 1, 19/40, 0) : RankedRow)
      ((label_of "B", "B", 2, 1, 19/40, 0) : RankedRow) := by
    norm_num [row_before, lexLe, row_key]
  have hsa : ¬ row_before
      ((label_of "S1", "S1", 0, 2, 1/20, 0) : RankedRow)
      ((label_of "A", "A", 2, 1, 19/40, 0) : RankedRow) := by
    norm_num [row_before, lexLe, row_key]
  have hsb : ¬ row_before
      ((label_of "S1", "S1", 0, 2, 1/20, 0) : RankedRow)
      ((label_of "B", "B", 2, 1, 19/40, 0) : RankedRow) := by
    norm_num [row_before, lexLe, row_key]
  rw [assemble_rows, build_rows_g4, sort_rows]
  simp only [List.insertionSort, List.orderedInsert]
  rw [if_pos hab]
  simp only [List.orderedInsert]
  rw [if_neg hsa]
  rw [if_neg hsb]
  simp [RankedRow.url]

/-- C4 (counterexample): in the scenario graph the in-degree of `A` is
2 (edges `S1 -> A` and `B -> A`), not 1, and the assembled ranking
places `A` above `B` (they tie exactly on both PageRank and
betweenness, and the stable sort keeps the iteration order `A` before
`B`), not `B` above `A`. -/
theorem scenario_ranking_counterexample :
    g4.in_degree "A" ≠ 1 ∧
      (assemble_rows g4 pm4 (betweenness_centrality g4)).map RankedRow.url ≠
        ["B", "A", "S1"] := by
  constructor
  · decide
  · rw [sorted_rows_g4]
    decide

/-- C4 (amended): on the graph with edges
`{(S1,A), (S1,B), (A,B), (B,A)}`: `in_degree(A) = 2`,
`in_degree(B) = 2`, the returned PageRank map has
`PageRank(B) > PageRank(S1)` with `PageRank(A) = PageRank(B)` exactly,
and the assembled ranking is `A`, then `B`, then `S1`. -/
theorem scenario_ranking :
    g4.in_degree "A" = 2 ∧ g4.in_degree "B" = 2 ∧
      ∃ pm, pagerank g4 (17/20) (1/1000000) 100 = .ok pm ∧
        pm "S1" < pm "B" ∧ pm "A" = pm "B" ∧
        (assemble_rows g4 pm (betweenness_centrality g4)).map RankedRow.url =
          ["A", "B", "S1"] := by
  refine ⟨g4_inA, g4_inB, pm4, pagerank_g4_eval, ?_, ?_, sorted_rows_g4⟩
  · rw [pm4_S1, pm4_B]
    norm_num
  · rw [pm4_A, pm4_B]

theorem list_sum_map_add {α : Type} (l : List α) (f h : α → ℚ) :
    (l.map (fun x => f x + h x)).sum = (l.map f).sum + (l.map h).sum := by
  induction l with
  | nil => simp
  | cons x l ih => simp only [List.map_cons, List.sum_cons, ih]; ring

theorem list_sum_map_sub {α : Type} (l : List α) (f h : α → ℚ) :
    (l.map (fun x => f x - h x)).sum = (l.map f).sum - (l.map h).sum := by
  induction l with
  | nil => simp
  | cons x l ih => simp only [List.map_cons, List.sum_cons, ih]; ring

theorem list_sum_map_mul_left {α : Type} (l : List α) (c : ℚ) (f : α → ℚ) :
    (l.map (fun x => c * f x)).sum = c * (l.map f).sum := by
  induction l with
  | nil => simp
  | cons x l ih => simp only [List.map_cons, List.sum_cons, ih]; ring

theorem list_sum_map_const {α : Type} (l : List α) (c : ℚ) :
    (l.map (fun _ => c)).sum = (l.length : ℚ) * c := by
  induction l with
  | nil => simp
  | cons x l ih => simp only [List.map_cons, List.sum_cons, ih, List.length_cons]; push_cast; ring

theorem list_sum_map_swap {α β : Type} (l : List α) (m : List β) (f : α → β → ℚ) :
    (l.map (fun x => (m.map (fun y => f x y)).sum)).sum =
      (m.map (fun y => (l.map (fun x => f x y)).sum)).sum := by
  induction l with
  | nil => simp
  | cons x l ih =>
    simp only [List.map_cons, List.sum_cons, ih, ← list_sum_map_add]

theorem list_abs_sum_le {α : Type} (l : List α) (f : α → ℚ) :
    |(l.map f).sum| ≤ (l.map (fun x => |f x|)).sum := by
  induction l with
  | nil => simp
  | cons x l ih =>
    simp only [List.map_cons, List.sum_cons]
    exact (abs_add _ _).trans (by linarith)

theorem list_sum_map_ite_count {α : Type} (l : List α) (p : α → Prop)
    [DecidablePred p] (c : ℚ) :
    (l.map (fun x => if p x then c else 0)).sum =
      ((l.countP (fun x => decide (p x)) : ℚ)) * c := by
  induction l with
  | nil => simp
  | cons x l ih =>
    by_cases h : p x
    · simp only [List.map_cons, List.sum_cons, if_pos h, ih,
        List.countP_cons, decide_eq_true h]
      push_cast
      ring
    · simp only [List.map_cons, List.sum_cons, if_neg h, ih,
        List.countP_cons, decide_eq_false h]
      push_cast
      ring

/-- In a well-formed graph, the nodes with an edge from `u` are counted
exactly by `u`'s out-degree: the edges leaving `u` have pairwise
distinct targets (no parallel edges), and every target is a node. -/
theorem countP_targets_eq_out_degree (g : Graph) (hWF : g.WF) (u : String) :
    g.nodes.countP (fun v => decide ((u, v) ∈ g.edges)) = g.out_degree u := by
  obtain ⟨hn, he, hep⟩ := hWF
  rw [List.countP_eq_length_filter]
  have h1 : (g.nodes.filter (fun v => decide ((u, v) ∈ g.edges))).Nodup :=
    hn.filter _
  have h2 : ((g.edges.filter (fun e => e.1 == u)).map (fun e => e.2)).Nodup := by
    refine List.Nodup.map_on ?_ (he.filter _)
    intro e1 h1m e2 h2m heq
    have hu1 : e1.1 = u := by
      have := List.of_mem_filter h1m
      simpa using this
    have hu2 : e2.1 = u := by
      have := List.of_mem_filter h2m
      simpa using this
    exact Prod.ext (hu1.trans hu2.symm) heq
  have hext : ∀ v, v ∈ g.nodes.filter (fun v => decide ((u, v) ∈ g.edges)) ↔
      v ∈ (g.edges.filter (fun e => e.1 == u)).map (fun e => e.2) := by
    intro v
    simp only [List.mem_filter, List.mem_map, decide_eq_true_eq]
    constructor
    · rintro ⟨_, hmem⟩
      exact ⟨(u, v), by simpa using hmem, rfl⟩
    · rintro ⟨e, hmem, rfl⟩
      have h3 := hmem
      have h4 : e.1 = u := by simpa using h3.2
      refine ⟨(hep e h3.1).2, ?_⟩
      have h5 : e = (u, e.2) := Prod.ext h4 rfl
      rw [← h5]
      exact h3.1
  have hperm : (g.nodes.filter (fun v => decide ((u, v) ∈ g.edges))).Perm
      ((g.edges.filter (fun e => e.1 == u)).map (fun e => e.2)) :=
    (List.perm_ext_iff_of_nodup h1 h2).mpr hext
  rw [hperm.length_eq]
  rfl

/-- Summing an if-guarded constant over the node list counts the edges
leaving `u`. -/
theorem sum_ite_edge (g : Graph) (hWF : g.WF) (u : String) (c : ℚ) :
    (g.nodes.map (fun v => if (u, v) ∈ g.edges then c else 0)).sum =
      (g.out_degree u : ℚ) * c := by
  rw [list_sum_map_ite_count, countP_targets_eq_out_degree g hWF u]

/-- Conservation of score mass: summing the inbound flows over all
nodes and adding the dangling mass recovers the total mass.  This is
the combinatorial heart of both the sum-to-one invariant and the L1
contraction of the power iteration. -/
theorem flow_conservation (g : Graph) (hWF : g.WF) (z : String → ℚ) :
    (g.nodes.map (fun v => pr_in_sum g z v)).sum + dangling_sum g z =
      (g.nodes.map z).sum := by
  unfold pr_in_sum dangling_sum
  rw [list_sum_map_swap]
  have h1 : (g.nodes.map (fun u =>
      (g.nodes.map (fun v => if (u, v) ∈ g.edges then z u / (g.out_degree u : ℚ)
        else 0)).sum)).sum =
      (g.nodes.map (fun u => (g.out_degree u : ℚ) * (z u / (g.out_degree u : ℚ)))).sum := by
    congr 1
    refine List.map_congr_left ?_
    intro u _
    exact sum_ite_edge g hWF u _
  rw [h1, ← list_sum_map_add]
  refine congrArg List.sum (List.map_congr_left ?_)
  intro u _
  by_cases hdu : g.out_degree u = 0
  · rw [hdu]
    simp
  · rw [if_neg hdu, mul_div_cancel₀ _ (by exact_mod_cast hdu), add_zero]

/-- One power iteration is affine in the total mass:
`sum(x') = a * sum(x) + (1 - a)`.  In particular mass 1 is preserved —
this is exactly the dangling-mass correction at work. -/
theorem sum_pr_step (g : Graph) (hWF : g.WF) (hN : g.N ≠ 0) (a : ℚ) (x : String → ℚ) :
    (g.nodes.map (pr_step g a x)).sum = a * (g.nodes.map x).sum + (1 - a) := by
  unfold pr_step
  rw [list_sum_map_add, list_sum_map_const, list_sum_map_mul_left, list_sum_map_add,
    list_sum_map_const]
  have hNQ : ((g.N : ℚ)) ≠ 0 := by exact_mod_cast hN
  have h1 : ((g.nodes.length : ℚ)) = (g.N : ℚ) := by rw [Graph.N]
  rw [h1,
    show (g.N : ℚ) * (dangling_sum g x / (g.N : ℚ)) = dangling_sum g x from by
      field_simp,
    show (g.N : ℚ) * ((1 - a) / (g.N : ℚ)) = 1 - a from by field_simp,
    flow_conservation g hWF x]

theorem pr_in_sum_nonneg (g : Graph) (x : String → ℚ)
    (hx : ∀ u ∈ g.nodes, 0 ≤ x u) (v : String) : 0 ≤ pr_in_sum g x v := by
  refine List.sum_nonneg ?_
  intro q hq
  obtain ⟨u, hu, rfl⟩ := List.mem_map.mp hq
  by_cases h : (u, v) ∈ g.edges
  · rw [if_pos h]
    exact div_nonneg (hx u hu) (by positivity)
  · rw [if_neg h]

theorem dangling_sum_nonneg (g : Graph) (x : String → ℚ)
    (hx : ∀ u ∈ g.nodes, 0 ≤ x u) : 0 ≤ dangling_sum g x := by
  refine List.sum_nonneg ?_
  intro q hq
  obtain ⟨u, hu, rfl⟩ := List.mem_map.mp hq
  by_cases h : g.out_degree u = 0
  · rw [if_pos h]
    exact hx u hu
  · rw [if_neg h]

theorem pr_step_nonneg (g : Graph) (a : ℚ) (ha0 : 0 ≤ a) (ha1 : a ≤ 1)
    (x : String → ℚ) (hx : ∀ u ∈ g.nodes, 0 ≤ x u) (v : String) :
    0 ≤ pr_step g a x v := by
  unfold pr_step
  have h1 := pr_in_sum_nonneg g x hx v
  have h2 := dangling_sum_nonneg g x hx
  have h3 : (0:ℚ) ≤ (g.N : ℚ) := by positivity
  have h4 : (0:ℚ) ≤ 1 - a := by linarith
  positivity

/-- Along any run of the iteration loop that returns a vector, the
invariants "all scores non-negative" and "scores sum to 1" are
preserved from the initial vector to the returned one. -/
theorem pr_loop_ok_invariant (g : Graph) (hWF : g.WF) (hN : g.N ≠ 0)
    (a tol : ℚ) (ha0 : 0 ≤ a) (ha1 : a ≤ 1) :
    ∀ (fuel : Nat) (x : String → ℚ), (∀ v ∈ g.nodes, 0 ≤ x v) →
      (g.nodes.map x).sum = 1 → ∀ m, pr_loop g a tol x fuel = .ok m →
      (∀ v ∈ g.nodes, 0 ≤ m v) ∧ (g.nodes.map m).sum = 1 := by
  intro fuel
  induction fuel with
  | zero =>
    intro x _ _ m hok
    simp [pr_loop] at hok
  | succ f ih =>
    intro x hx hsum m hok
    rw [pr_loop] at hok
    by_cases hc : l1_err g (pr_step g a x) x < (g.N : ℚ) * tol
    · rw [if_pos hc] at hok
      obtain rfl : pr_step g a x = m := by
        injection hok
      refine ⟨fun v _ => pr_step_nonneg g a ha0 ha1 x hx v, ?_⟩
      rw [sum_pr_step g hWF hN a x, hsum]
      ring
    · rw [if_neg hc] at hok
      refine ih (pr_step g a x) (fun v _ => pr_step_nonneg g a ha0 ha1 x hx v) ?_ m hok
      rw [sum_pr_step g hWF hN a x, hsum]
      ring

/-- C3: for every well-formed graph with at least one node on which the
engine returns (with the script's default parameters), the returned
score map is non-negative on every node and its scores sum to exactly 1
— in particular within the claimed tolerance `1e-4 * N`.  The
dangling-mass redistribution is what makes the sum invariant hold on
graphs with dangling nodes (`flow_conservation` above). -/
theorem pagerank_sum_to_one (g : Graph) (hWF : g.WF) (hN : g.N ≠ 0)
    (m : String → ℚ) (hok : pagerank g (17/20) (1/1000000) 100 = .ok m) :
    (∀ v ∈ g.nodes, 0 ≤ m v) ∧ (g.nodes.map m).sum = 1 ∧
      |(g.nodes.map m).sum - 1| ≤ (g.N : ℚ) * (1/10000) := by
  rw [pagerank, if_neg hN] at hok
  have hNQ : ((g.N : ℚ)) ≠ 0 := by exact_mod_cast hN
  have h0 : ∀ v ∈ g.nodes, 0 ≤ (fun _ : String => 1 / (g.N : ℚ)) v := by
    intro v _
    positivity
  have hsum0 : (g.nodes.map (fun _ : String => 1 / (g.N : ℚ))).sum = 1 := by
    rw [list_sum_map_const, show ((g.nodes.length : ℚ)) = (g.N : ℚ) from by rw [Graph.N],
      mul_one_div, div_self hNQ]
  obtain ⟨hnn, hsum⟩ := pr_loop_ok_invariant g hWF hN (17/20) (1/1000000)
    (by norm_num) (by norm_num) 100 _ h0 hsum0 m hok
  refine ⟨hnn, hsum, ?_⟩
  rw [hsum, sub_self, abs_zero]
  positivity

/-- C3 (witness): the returned map of the scenario graph `g4` is
non-negative with scores summing to 1. -/
theorem pagerank_sum_to_one_witness :
    (∀ v ∈ g4.nodes, 0 ≤ pm4 v) ∧ (g4.nodes.map pm4).sum = 1 ∧
      |(g4.nodes.map pm4).sum - 1| ≤ (g4.N : ℚ) * (1/10000) :=
  pagerank_sum_to_one g4
    (buildGraph_WF [("S1", "A"), ("S1", "B"), ("A", "B"), ("B", "A")])
    (by decide) pm4 pagerank_g4_eval

theorem pr_in_sum_sub (g : Graph) (x y : String → ℚ) (v : String) :
    pr_in_sum g x v - pr_in_sum g y v = pr_in_sum g (fun u => x u - y u) v := by
  unfold pr_in_sum
  rw [← list_sum_map_sub]
  refine congrArg List.sum (List.map_congr_left ?_)
  intro u _
  by_cases h : (u, v) ∈ g.edges <;> simp [h, sub_div]

theorem dangling_sum_sub (g : Graph) (x y : String → ℚ) :
    dangling_sum g x - dangling_sum g y = dangling_sum g (fun u => x u - y u) := by
  unfold dangling_sum
  rw [← list_sum_map_sub]
  refine congrArg List.sum (List.map_congr_left ?_)
  intro u _
  by_cases h : g.out_degree u = 0 <;> simp [h]

/-- The power iteration is affine: the difference of two steps is the
damping factor times the step matrix applied to the difference. -/
theorem pr_step_sub (g : Graph) (a : ℚ) (x y : String → ℚ) (v : String) :
    pr_step g a x v - pr_step g a y v =
      a * (pr_in_sum g (fun u => x u - y u) v +
        dangling_sum g (fun u => x u - y u) / (g.N : ℚ)) := by
  unfold pr_step
  rw [← pr_in_sum_sub g x y v, ← dangling_sum_sub g x y]
  ring

theorem abs_pr_in_sum_le (g : Graph) (z : String → ℚ) (v : String) :
    |pr_in_sum g z v| ≤ pr_in_sum g (fun u => |z u|) v := by
  unfold pr_in_sum
  refine (list_abs_sum_le _ _).trans (le_of_eq ?_)
  refine congrArg List.sum (List.map_congr_left ?_)
  intro u _
  by_cases h : (u, v) ∈ g.edges
  · rw [if_pos h, if_pos h, abs_div, Nat.abs_cast]
  · simp [h]

theorem abs_dangling_sum_le (g : Graph) (z : String → ℚ) :
    |dangling_sum g z| ≤ dangling_sum g (fun u => |z u|) := by
  unfold dangling_sum
  refine (list_abs_sum_le _ _).trans (le_of_eq ?_)
  refine congrArg List.sum (List.map_congr_left ?_)
  intro u _
  by_cases h : g.out_degree u = 0 <;> simp [h]

/-- L1 contraction of the power iteration: the Google matrix of the
update is column-stochastic, so one step shrinks the L1 distance of any
two vectors by at least the damping factor. -/
theorem l1_err_contraction (g : Graph) (hWF : g.WF) (hN : g.N ≠ 0)
    (a : ℚ) (ha0 : 0 ≤ a) (x y : String → ℚ) :
    l1_err g (pr_step g a x) (pr_step g a y) ≤ a * l1_err g x y := by
  have hNpos : (0:ℚ) < (g.N : ℚ) := by
    have h := Nat.pos_of_ne_zero hN
    exact_mod_cast h
  have hpt : ∀ v ∈ g.nodes, |pr_step g a x v - pr_step g a y v| ≤
      a * (pr_in_sum g (fun u => |x u - y u|) v +
        dangling_sum g (fun u => |x u - y u|) / (g.N : ℚ)) := by
    intro v _
    rw [pr_step_sub g a x y v, abs_mul, abs_of_nonneg ha0]
    refine mul_le_mul_of_nonneg_left ?_ ha0
    refine (abs_add _ _).trans ?_
    have h1 := abs_pr_in_sum_le g (fun u => x u - y u) v
    have h2 : |dangling_sum g (fun u => x u - y u) / (g.N:ℚ)| ≤
        dangling_sum g (fun u => |x u - y u|) / (g.N : ℚ) := by
      rw [abs_div, abs_of_pos hNpos]
      gcongr
      exact abs_dangling_sum_le g _
    linarith
  calc l1_err g (pr_step g a x) (pr_step g a y)
      ≤ (g.nodes.map (fun v => a * (pr_in_sum g (fun u => |x u - y u|) v +
          dangling_sum g (fun u => |x u - y u|) / (g.N : ℚ)))).sum :=
        List.sum_le_sum hpt
    _ = a * ((g.nodes.map (fun v => pr_in_sum g (fun u => |x u - y u|) v)).sum +
          (g.N : ℚ) * (dangling_sum g (fun u => |x u - y u|) / (g.N : ℚ))) := by
        rw [list_sum_map_mul_left, list_sum_map_add, list_sum_map_const,
          show ((g.nodes.length : ℚ)) = (g.N : ℚ) from by rw [Graph.N]]
    _ = a * ((g.nodes.map (fun v => pr_in_sum g (fun u => |x u - y u|) v)).sum +
          dangling_sum g (fun u => |x u - y u|)) := by
        rw [show (g.N:ℚ) * (dangling_sum g (fun u => |x u - y u|) / (g.N:ℚ)) =
          dangling_sum g (fun u => |x u - y u|) from by field_simp]
    _ = a * (g.nodes.map (fun u => |x u - y u|)).sum := by
        rw [flow_conservation g hWF (fun u => |x u - y u|)]
    _ = a * l1_err g x y := rfl

/-- Two non-negative vectors of total mass 1 are at L1 distance at
most 2. -/
theorem l1_err_le_two (g : Graph) (x y : String → ℚ)
    (hx : ∀ v ∈ g.nodes, 0 ≤ x v) (hy : ∀ v ∈ g.nodes, 0 ≤ y v)
    (hsx : (g.nodes.map x).sum = 1) (hsy : (g.nodes.map y).sum = 1) :
    l1_err g x y ≤ 2 := by
  unfold l1_err
  calc (g.nodes.map (fun v => |x v - y v|)).sum
      ≤ (g.nodes.map (fun v => x v + y v)).sum := by
        refine List.sum_le_sum ?_
        intro v hv
        have h1 := hx v hv
        have h2 := hy v hv
        refine abs_le.mpr ⟨by linarith, by linarith⟩
    _ = 2 := by rw [list_sum_map_add, hsx, hsy]; norm_num

/-- If the very first L1 delta is at most `C` and the geometric bound
`C * a^fuel` has dropped below the threshold, the loop returns a vector
within `fuel + 1` iterations. -/
theorem pr_loop_isOk (g : Graph) (hWF : g.WF) (hN : g.N ≠ 0) (a tol : ℚ)
    (ha0 : 0 ≤ a) :
    ∀ (fuel : Nat) (x : String → ℚ) (C : ℚ),
      l1_err g (pr_step g a x) x ≤ C → C * a ^ fuel < (g.N : ℚ) * tol →
      (pr_loop g a tol x (fuel + 1)).isOk = true := by
  intro fuel
  induction fuel with
  | zero =>
    intro x C hC hlt
    rw [pow_zero, mul_one] at hlt
    rw [pr_loop, if_pos (lt_of_le_of_lt hC hlt)]
    rfl
  | succ f ih =>
    intro x C hC hlt
    rw [pr_loop]
    by_cases hc : l1_err g (pr_step g a x) x < (g.N : ℚ) * tol
    · rw [if_pos hc]
      rfl
    · rw [if_neg hc]
      refine ih (pr_step g a x) (a * C) ?_ ?_
      · calc l1_err g (pr_step g a (pr_step g a x)) (pr_step g a x)
            ≤ a * l1_err g (pr_step g a x) x :=
              l1_err_contraction g hWF hN a ha0 _ _
          _ ≤ a * C := mul_le_mul_of_nonneg_left hC ha0
      · calc (a * C) * a ^ f = C * a ^ (f + 1) := by ring
          _ < (g.N : ℚ) * tol := hlt

/-- C2 (amended): with the script's default parameters
(`alpha = 0.85`, `tol = 1e-6`, `max_iter = 100`) the PageRank engine
returns a score vector on every well-formed finite graph: the L1 delta
after `k` iterations is at most `2 * 0.85^(k-1)`, and
`2 * 0.85^99 < 1e-6 ≤ N * tol`, so the loop always converges before the
cap.  (When the cap is genuinely exhausted the engine raises
`PowerIterationFailedConvergence` instead of returning the last vector
— see the counterexample with `max_iter = 1`.) -/
theorem pagerank_never_fails_at_defaults (g : Graph) (hWF : g.WF) :
    (pagerank g (17/20) (1/1000000) 100).isOk = true := by
  by_cases hN : g.N = 0
  · rw [pagerank, if_pos hN]
    rfl
  · rw [pagerank, if_neg hN]
    have hNQ1 : (1:ℚ) ≤ (g.N : ℚ) := by
      have h := Nat.one_le_iff_ne_zero.mpr hN
      exact_mod_cast h
    have hNQ : ((g.N : ℚ)) ≠ 0 := by exact_mod_cast hN
    have h0 : ∀ v ∈ g.nodes, 0 ≤ (fun _ : String => 1 / (g.N : ℚ)) v := by
      intro v _
      positivity
    have hsum0 : (g.nodes.map (fun _ : String => 1 / (g.N : ℚ))).sum = 1 := by
      rw [list_sum_map_const, show ((g.nodes.length : ℚ)) = (g.N : ℚ) from by rw [Graph.N],
        mul_one_div, div_self hNQ]
    show (pr_loop g (17/20) (1/1000000) (fun _ => 1 / (g.N : ℚ)) (99 + 1)).isOk = true
    refine pr_loop_isOk g hWF hN (17/20) (1/1000000) (by norm_num) 99 _ 2 ?_ ?_
    · refine l1_err_le_two g _ _
        (fun v hv => pr_step_nonneg g (17/20) (by norm_num) (by norm_num) _ h0 v)
        h0 ?_ hsum0
      rw [sum_pr_step g hWF hN _ _, hsum0]
      norm_num
    · calc (2:ℚ) * (17/20) ^ 99 < 1 * (1/1000000) := by norm_num
        _ ≤ (g.N : ℚ) * (1/1000000) := by
          exact mul_le_mul_of_nonneg_right hNQ1 (by norm_num)

/-- C2 (witness for the amended theorem): on the scenario graph the
engine returns a vector at the default cap. -/
theorem pagerank_never_fails_witness :
    (pagerank g4 (17/20) (1/1000000) 100).isOk = true :=
  pagerank_never_fails_at_defaults g4
    (buildGraph_WF [("S1", "A"), ("S1", "B"), ("A", "B"), ("B", "A")])

/-- C2 (counterexample): on the scenario graph with the iteration cap
set to 1, the first L1 delta (`17/30`) is far above the threshold
`N * tol = 3e-6`, so the cap is exhausted — and the engine raises
`PowerIterationFailedConvergence` (an error) instead of returning the
last computed vector. -/
theorem pagerank_cap_exhaustion_raises :
    pagerank g4 (17/20) (1/1000000) 1 = .error () ∧
      ¬ l1_err g4 x14 x04 < (g4.N : ℚ) * (1/1000000) := by
  refine ⟨pagerank_g4_cap1, ?_⟩
  rw [l1_err_g4_1, g4_N]
  norm_num

/-- C6 (the code at the failing input): when every fetch fails the
crawled graph is empty and the first seed is not a node of it, so line
89's `G.successors(seed)` raises `NetworkXError`; `predecessors`
likewise raises on a node not in the digraph, and the public degree
calls on an unknown string return an empty `DegreeView` (the string is
consumed as an nbunch), not the integer 0 — against the claim that all
four queries return empty or zero results and never fail. -/
theorem unknown_node_queries_raise :
    crawl (fun _ => none) = Graph.empty ∧
      Graph.successors_call (crawl (fun _ => none))
        "https://en.wikipedia.org/wiki/University_of_Maryland,_College_Park" =
        .error () ∧
      Graph.predecessors_call g4 "Z" = .error () ∧
      Graph.in_degree_call g4 "Z" = .view [] ∧
      Graph.out_degree_call g4 "Z" = .view [] := by
  refine ⟨rfl, rfl, rfl, rfl, rfl⟩
